import Mathlib

/-!
Verification of the PNGProtect image-protection engine against its
specification.

The watermark codec (`src/backend/app/services/watermarking.py`) works on the
row-major flattening of an RGB pixel grid: `np.array(image).flatten()` yields a
1-D sequence of 8-bit samples in (row, col, channel) order.  We embed that
flattened sequence directly as a `List Nat`; PNG decoding and the numpy
flattening itself are external collaborators.  Bit strings (Python `str` of
`'0'`/`'1'` characters) are embedded as `List Nat` with entries in `{0, 1}`.
Python floats that only ever carry small decimal constants and exact
comparisons are embedded as `ℚ`.
-/

namespace PNGProtect

/-! ### Bit serialization, `format(ord(ch), '08b')` -/

/-- Minimal binary digits of `n`, most significant first (`format(n, 'b')`
without padding, except that `format(0, 'b') = "0"` is handled by `binDigits`).
The first argument is recursion fuel; `n` halves each step, so fuel `n`
is always enough. -/
def binDigitsFuel : Nat → Nat → List Nat
  | 0, _ => []
  | fuel + 1, n => if n = 0 then [] else binDigitsFuel fuel (n / 2) ++ [n % 2]

/-- `format(n, 'b')`: minimal binary representation, MSB first. -/
def binDigits (n : Nat) : List Nat :=
  if n = 0 then [0] else binDigitsFuel n n

/-- `format(n, '08b')`: binary representation zero-padded on the left to at
least 8 digits (more than 8 digits are kept as-is for `n ≥ 256`). -/
def byteBits (n : Nat) : List Nat :=
  List.replicate (8 - (binDigits n).length) 0 ++ binDigits n

/-- Bits contributed by one character: `format(ord(i), '08b')`. -/
def charBits (c : Char) : List Nat := byteBits c.toNat

/-- Python: the concatenation of `format(ord(i), '08b')` over the characters of `s`. -/
def strBits (s : String) : List Nat := (s.data.map charBits).flatten

/-! ### `embed_watermark_lsb` -/

/-- The loop `for i in range(len(binary_data)): flat[i] = (flat[i] & 0xFE) | bit`. -/
def setLSBs : List Nat → List Nat → List Nat
  | l, [] => l
  | [], _ :: _ => []
  | v :: vs, b :: bs => ((v &&& 254) ||| b) :: setLSBs vs bs

/-- `embed_watermark_lsb(image, watermark_text, strength)` over the flattened
sample list.  The payload is `watermark_text + "@@@@"`, bit-serialized and
replicated `strength` times; the capacity check `len(binary_data) > len(flat)`
raises `ValueError` before any sample is touched, which we embed as
`Except.error`.  On success the code writes the bits into the least-significant
bits of the leading samples, masks everything back to `uint8` (`& 0xFF`) and
returns the new buffer together with the bitstream. -/
def embed_watermark_lsb (flat : List Nat) (watermark_text : String)
    (strength : Nat) : Except String (List Nat × List Nat) :=
  let binary_data := (List.replicate strength (strBits (watermark_text ++ "@@@@"))).flatten
  if binary_data.length > flat.length then
    Except.error "Image too small for this strength/text."
  else
    Except.ok ((setLSBs flat binary_data).map (fun v => v &&& 255), binary_data)

/-! ### `extract_watermark_lsb` -/

/-- `int(b, 2)` on a string of binary digits, MSB first. -/
def bitsToNat (l : List Nat) : Nat := l.foldl (fun a b => a * 2 + b) 0

/-- `chr(n)`: succeeds exactly for code points below `0x110000`.  (In the
extraction loop the argument is always at most 255, see the unreachability
theorem for the skip branch.) -/
def pyChr (n : Nat) : Option Char :=
  if n < 1114112 then some (Char.ofNat n) else none

/-- The delimiter `"@@@@"` as a character list. -/
def delim : List Char := ['@', '@', '@', '@']

/-- Does the list start with the four-`'@'` delimiter? -/
def startsWithDelim (l : List Char) : Bool := decide (l.take 4 = delim)

/-- `"@@@@" in s` on a character list. -/
def hasDelim : List Char → Bool
  | [] => false
  | c :: t => startsWithDelim (c :: t) || hasDelim t

/-- `s.split("@@@@")[0]`: the characters before the first occurrence of the
delimiter (the whole list when the delimiter does not occur). -/
def beforeDelim : List Char → List Char
  | [] => []
  | c :: t => if startsWithDelim (c :: t) then [] else c :: beforeDelim t

/-- `all_bytes = [binary_data[i:i+8] for i in range(0, len(binary_data), 8)]`:
chunks of 8, the trailing chunk possibly shorter. -/
def chunk8 : List Nat → List (List Nat)
  | [] => []
  | x1 :: x2 :: x3 :: x4 :: x5 :: x6 :: x7 :: x8 :: rest =>
    [x1, x2, x3, x4, x5, x6, x7, x8] :: chunk8 rest
  | l => [l]

/-- The decode loop of `extract_watermark_lsb`: per byte-chunk, `chr(int(b, 2))`
(the `except: continue` branch skips a chunk whose decode fails), append the
character, and as soon as the accumulated string contains `"@@@@"` return the
part before the first delimiter with match ratio `1.0`.  If the chunks run out,
return the sentinel `"Unknown"` with ratio `0.1`. -/
def scanBytes : List (List Nat) → List Char → String × ℚ
  | [], _ => ("Unknown", 1 / 10)
  | g :: rest, decoded =>
    match pyChr (bitsToNat g) with
    | none => scanBytes rest decoded
    | some ch =>
      let decoded2 := decoded ++ [ch]
      if hasDelim decoded2 then (String.mk (beforeDelim decoded2), 1)
      else scanBytes rest decoded2

/-- The scan window: least-significant bit of each of the first
`min(len(flat), 16000)` samples, in flattening order. -/
def lsbWindow (flat : List Nat) : List Nat :=
  (flat.take 16000).map (fun v => v &&& 1)

/-- `extract_watermark_lsb(image)` over the flattened sample list. -/
def extract_watermark_lsb (flat : List Nat) : String × ℚ :=
  scanBytes (chunk8 (lsbWindow flat)) []

/-- The full character stream the decode loop would produce if it never
stopped: every chunk decoded, failed decodes skipped. -/
def decodeAll (gs : List (List Nat)) : List Char :=
  gs.filterMap (fun g => pyChr (bitsToNat g))

/-! ### `verify_image` (routes/verify.py): found / owner / confidence / tamper -/

/-- `record is not None or (match_ratio > 0.5 and extracted_text != "Unknown")`.
The stored record is embedded as `Option String` carrying its `owner_id`. -/
def watermark_found (record : Option String) (extracted_text : String)
    (match_ratio : ℚ) : Bool :=
  record.isSome || (decide (match_ratio > 1 / 2) && decide (extracted_text ≠ "Unknown"))

/-- `record.owner_id if record else (extracted_text if extracted_text != "Unknown" else None)`. -/
def owner_id (record : Option String) (extracted_text : String) : Option String :=
  match record with
  | some o => some o
  | none => if extracted_text ≠ "Unknown" then some extracted_text else none

/-- The `found` rule as the specification words it ("a matching stored record
exists OR (match_ratio > 0.5 AND extracted text ≠ \"unknown\")"), written down
only to compare the spec's sentinel spelling against the code's. -/
def found_per_spec (record : Option String) (extracted_text : String)
    (match_ratio : ℚ) : Prop :=
  record.isSome = true ∨ (match_ratio > 1 / 2 ∧ extracted_text ≠ "unknown")

/-- Python `int()` on a rational: truncation toward zero. -/
def pyInt (q : ℚ) : ℤ := if q < 0 then -⌊-q⌋ else ⌊q⌋

/-- The confidence / tamper-status branch ladder of `verify_image`, including
the final clamp `confidence = max(0, min(100, confidence))`. -/
def confidence_tamper (found : Bool) (match_ratio : ℚ) : ℤ × String :=
  let raw : ℤ × String :=
    if found then
      if match_ratio > 9 / 10 then (pyInt (90 + (match_ratio - 9 / 10) * 100), "intact")
      else if match_ratio > 7 / 10 then (pyInt (60 + (match_ratio - 7 / 10) * 100), "modified")
      else (pyInt (40 + match_ratio * 100), "modified")
    else
      if match_ratio > 4 / 10 then (pyInt (20 + match_ratio * 80), "modified")
      else (pyInt (match_ratio * 40), "no watermark")
  (max 0 (min 100 raw.1), raw.2)

/-! ### `process_protection` (routes/protection.py): the epsilon convention -/

/-- `epsilon = strength; if strength > 1.0: epsilon = (strength / 100.0) * 0.05`. -/
def epsilonOf (strength : ℚ) : ℚ :=
  if strength > 1 then strength / 100 * (5 / 100) else strength

/-! ### Helper lemmas: bit serialization -/

lemma binDigitsFuel_le_one : ∀ fuel n b, b ∈ binDigitsFuel fuel n → b ≤ 1 := by
  intro fuel
  induction fuel with
  | zero => simp [binDigitsFuel]
  | succ f ih =>
    intro n b hb
    simp only [binDigitsFuel] at hb
    split at hb
    · simp at hb
    · rcases List.mem_append.mp hb with h | h
      · exact ih _ _ h
      · simp only [List.mem_singleton] at h
        omega

lemma byteBits_le_one : ∀ n b, b ∈ byteBits n → b ≤ 1 := by
  intro n b hb
  rcases List.mem_append.mp hb with h | h
  · have := List.eq_of_mem_replicate h
    omega
  · unfold binDigits at h
    split at h
    · simp only [List.mem_singleton] at h
      omega
    · exact binDigitsFuel_le_one _ _ _ h

set_option maxRecDepth 8000 in
lemma byteBits_byte : ∀ n, n < 256 → (byteBits n).length = 8 ∧ bitsToNat (byteBits n) = n := by
  decide

lemma char_toNat_lt (c : Char) : c.toNat < 1114112 := by
  have h := c.valid
  simp [UInt32.isValidChar, Nat.isValidChar, Char.toNat] at h ⊢
  rcases h with h | ⟨h1, h2⟩ <;> omega

lemma pyChr_toNat (c : Char) : pyChr c.toNat = some c := by
  unfold pyChr
  rw [if_pos (char_toNat_lt c), Char.ofNat_toNat]

lemma charBits_length (c : Char) (h : c.toNat < 256) : (charBits c).length = 8 :=
  (byteBits_byte c.toNat h).1

lemma charBits_decode (c : Char) (h : c.toNat < 256) :
    pyChr (bitsToNat (charBits c)) = some c := by
  unfold charBits
  rw [(byteBits_byte c.toNat h).2, pyChr_toNat]

lemma strBits_le_one (s : String) : ∀ b ∈ strBits s, b ≤ 1 := by
  intro b hb
  unfold strBits at hb
  rcases List.mem_flatten.mp hb with ⟨l, hl, hbl⟩
  rcases List.mem_map.mp hl with ⟨c, _, rfl⟩
  exact byteBits_le_one _ _ hbl

lemma strBits_length (s : String) (h : ∀ c ∈ s.data, c.toNat < 256) :
    (strBits s).length = 8 * s.length := by
  unfold strBits
  rw [List.length_flatten, List.map_map]
  have : ∀ l : List Char, (∀ c ∈ l, c.toNat < 256) →
      (l.map (List.length ∘ charBits)).sum = 8 * l.length := by
    intro l
    induction l with
    | nil => simp
    | cons c t ih =>
      intro hct
      have hc : (charBits c).length = 8 := charBits_length c (hct c (by simp))
      simp only [List.map_cons, List.sum_cons, Function.comp_apply, hc, List.length_cons]
      rw [ih (fun x hx => hct x (by simp [hx]))]
      ring
  exact this s.data h

/-! ### Helper lemmas: the embedding loop -/

set_option maxRecDepth 8000 in
/-- All facts about one modified sample, over the whole `uint8` range. -/
lemma lsb_write_facts : ∀ v, v < 256 → ∀ b, b ≤ 1 →
    (((v &&& 254) ||| b) &&& 255) = (v &&& 254) ||| b ∧
    ((v &&& 254) ||| b) % 2 = b ∧
    ((v &&& 254) ||| b) / 2 = v / 2 ∧
    (v &&& 255) = v ∧
    ((v &&& 254) ||| b) &&& 1 = b := by
  decide

lemma setLSBs_length : ∀ flat bits : List Nat, bits.length ≤ flat.length →
    (setLSBs flat bits).length = flat.length := by
  intro flat bits
  induction bits generalizing flat with
  | nil => simp [setLSBs]
  | cons b bs ih =>
    cases flat with
    | nil => simp [setLSBs]
    | cons v vs =>
      intro h
      simp only [setLSBs, List.length_cons]
      rw [ih vs (by simpa using h)]

lemma setLSBs_drop : ∀ flat bits : List Nat,
    (setLSBs flat bits).drop bits.length = flat.drop bits.length := by
  intro flat bits
  induction bits generalizing flat with
  | nil => simp [setLSBs]
  | cons b bs ih =>
    cases flat with
    | nil => simp [setLSBs]
    | cons v vs => simpa [setLSBs] using ih vs

lemma setLSBs_map_lsb : ∀ flat bits : List Nat, bits.length ≤ flat.length →
    (∀ v ∈ flat, v < 256) → (∀ b ∈ bits, b ≤ 1) →
    (setLSBs flat bits).map (fun v => (v &&& 255) &&& 1) =
      bits ++ (flat.drop bits.length).map (fun v => (v &&& 255) &&& 1) := by
  intro flat bits
  induction bits generalizing flat with
  | nil => simp [setLSBs]
  | cons b bs ih =>
    cases flat with
    | nil => simp
    | cons v vs =>
      intro hle hv hb
      have hv256 : v < 256 := hv v (by simp)
      have hb1 : b ≤ 1 := hb b (by simp)
      have hfacts := lsb_write_facts v hv256 b hb1
      simp only [setLSBs, List.map_cons, List.drop_succ_cons, List.cons_append,
        List.cons.injEq]
      constructor
      · rw [hfacts.1, hfacts.2.2.2.2]
      · exact ih vs (by simpa using hle) (fun x hx => hv x (by simp [hx]))
          (fun x hx => hb x (by simp [hx]))

lemma getD_map_lt (f : Nat → Nat) : ∀ (l : List Nat) i, i < l.length →
    (l.map f).getD i 0 = f (l.getD i 0) := by
  intro l
  induction l with
  | nil => simp
  | cons x t ih =>
    intro i hi
    cases i with
    | zero => simp
    | succ j => simpa using ih j (by simpa using hi)

lemma setLSBs_getD : ∀ flat bits : List Nat, ∀ i, i < bits.length → i < flat.length →
    (setLSBs flat bits).getD i 0 = ((flat.getD i 0) &&& 254) ||| (bits.getD i 0) := by
  intro flat bits
  induction bits generalizing flat with
  | nil => simp
  | cons b bs ih =>
    cases flat with
    | nil => simp
    | cons v vs =>
      intro i hib hif
      cases i with
      | zero => simp [setLSBs]
      | succ j =>
        simp only [setLSBs, List.getD_cons_succ]
        exact ih vs j (by simpa using hib) (by simpa using hif)

/-! ### Helper lemmas: byte chunking -/

lemma exists_eight : ∀ l : List Nat, 8 ≤ l.length →
    ∃ x1 x2 x3 x4 x5 x6 x7 x8 rest,
      l = x1 :: x2 :: x3 :: x4 :: x5 :: x6 :: x7 :: x8 :: rest
  | x1 :: x2 :: x3 :: x4 :: x5 :: x6 :: x7 :: x8 :: rest, _ =>
    ⟨x1, x2, x3, x4, x5, x6, x7, x8, rest, rfl⟩
  | [], h => by simp at h
  | [_], h => by simp at h
  | [_, _], h => by simp at h
  | [_, _, _], h => by simp at h
  | [_, _, _, _], h => by simp at h
  | [_, _, _, _, _], h => by simp at h
  | [_, _, _, _, _, _], h => by simp at h
  | [_, _, _, _, _, _, _], h => by simp at h

lemma chunk8_block (b l : List Nat) (hb : b.length = 8) :
    chunk8 (b ++ l) = b :: chunk8 l := by
  obtain ⟨x1, x2, x3, x4, x5, x6, x7, x8, rest, rfl⟩ := exists_eight b (by omega)
  have hrest : rest = [] := by
    simp only [List.length_cons] at hb
    exact List.eq_nil_of_length_eq_zero (by omega)
  subst hrest
  simp [chunk8]

lemma chunk8_flatten (blocks : List (List Nat)) (rest : List Nat)
    (h : ∀ b ∈ blocks, b.length = 8) :
    chunk8 (blocks.flatten ++ rest) = blocks ++ chunk8 rest := by
  induction blocks with
  | nil => simp
  | cons b bs ih =>
    simp only [List.flatten_cons, List.append_assoc, List.cons_append]
    rw [chunk8_block b _ (h b (by simp)), ih (fun x hx => h x (by simp [hx]))]

lemma chunk8_mem (l : List Nat) (hl : ∀ x ∈ l, x ≤ 1) :
    ∀ g ∈ chunk8 l, g.length ≤ 8 ∧ ∀ x ∈ g, x ≤ 1 := by
  induction l using chunk8.induct with
  | case1 => simp [chunk8]
  | case2 x1 x2 x3 x4 x5 x6 x7 x8 rest ih =>
    intro g hg
    simp only [chunk8, List.mem_cons] at hg
    rcases hg with rfl | hg
    · refine ⟨by simp, ?_⟩
      intro x hx
      exact hl x (by simp at hx; rcases hx with h1|h1|h1|h1|h1|h1|h1|h1 <;> simp [h1])
    · exact ih (fun x hx => hl x (by simp [hx])) g hg
  | case3 l h1 h2 =>
    intro g hg
    have hlen : l.length < 8 := by
      by_contra hc
      push_neg at hc
      obtain ⟨x1, x2, x3, x4, x5, x6, x7, x8, rest, rfl⟩ := exists_eight l hc
      exact h2 x1 x2 x3 x4 x5 x6 x7 x8 rest rfl
    have hsing : chunk8 l = [l] := by
      rcases l with _ | ⟨a1, t⟩
      · exact absurd rfl h1
      rcases t with _ | ⟨a2, t⟩
      · rfl
      rcases t with _ | ⟨a3, t⟩
      · rfl
      rcases t with _ | ⟨a4, t⟩
      · rfl
      rcases t with _ | ⟨a5, t⟩
      · rfl
      rcases t with _ | ⟨a6, t⟩
      · rfl
      rcases t with _ | ⟨a7, t⟩
      · rfl
      rcases t with _ | ⟨a8, t⟩
      · rfl
      simp only [List.length_cons] at hlen
      omega
    rw [hsing] at hg
    simp only [List.mem_singleton] at hg
    subst hg
    exact ⟨by omega, fun x hx => hl x hx⟩

lemma bitsToNat_fold (g : List Nat) : ∀ acc : Nat, (∀ x ∈ g, x ≤ 1) →
    g.foldl (fun a b => a * 2 + b) acc < (acc + 1) * 2 ^ g.length := by
  induction g with
  | nil => intro acc _; simp
  | cons x t ih =>
    intro acc h
    have hx : x ≤ 1 := h x (by simp)
    have hrec := ih (acc * 2 + x) (fun y hy => h y (by simp [hy]))
    have h2 : acc * 2 + x + 1 ≤ (acc + 1) * 2 := by omega
    calc (x :: t).foldl (fun a b => a * 2 + b) acc
        = t.foldl (fun a b => a * 2 + b) (acc * 2 + x) := by simp [List.foldl_cons]
      _ < (acc * 2 + x + 1) * 2 ^ t.length := hrec
      _ ≤ ((acc + 1) * 2) * 2 ^ t.length := Nat.mul_le_mul_right _ h2
      _ = (acc + 1) * 2 ^ (x :: t).length := by
          simp only [List.length_cons, pow_succ]
          ring

lemma bitsToNat_le_255 (g : List Nat) (h1 : ∀ x ∈ g, x ≤ 1) (h8 : g.length ≤ 8) :
    bitsToNat g ≤ 255 := by
  have := bitsToNat_fold g 0 h1
  have hpow : (2 : Nat) ^ g.length ≤ 2 ^ 8 := Nat.pow_le_pow_right (by omega) h8
  simp only [bitsToNat]
  omega

/-! ### Helper lemmas: the delimiter search -/

lemma startsWithDelim_length (l : List Char) (h : startsWithDelim l = true) :
    4 ≤ l.length := by
  unfold startsWithDelim at h
  simp only [decide_eq_true_eq] at h
  by_contra hlt
  push_neg at hlt
  have hlen : (l.take 4).length = l.length := by
    rw [List.length_take]
    omega
  rw [h] at hlen
  simp [delim] at hlen
  omega

lemma startsWithDelim_append_of_four (l l' : List Char) (h4 : 4 ≤ l.length) :
    startsWithDelim (l ++ l') = startsWithDelim l := by
  unfold startsWithDelim
  rw [List.take_append_eq_append_take]
  have h0 : 4 - l.length = 0 := by omega
  rw [h0]
  simp

lemma startsWithDelim_append (l l' : List Char) (h : startsWithDelim l = true) :
    startsWithDelim (l ++ l') = true := by
  rw [startsWithDelim_append_of_four l l' (startsWithDelim_length l h)]
  exact h

lemma hasDelim_length (l : List Char) (h : hasDelim l = true) : 4 ≤ l.length := by
  induction l with
  | nil => simp [hasDelim] at h
  | cons c t ih =>
    simp only [hasDelim, Bool.or_eq_true] at h
    rcases h with h | h
    · exact startsWithDelim_length _ h
    · have := ih h
      simp only [List.length_cons]
      omega

lemma hasDelim_append (l l' : List Char) (h : hasDelim l = true) :
    hasDelim (l ++ l') = true := by
  induction l with
  | nil => simp [hasDelim] at h
  | cons c t ih =>
    simp only [hasDelim, Bool.or_eq_true, List.cons_append] at h ⊢
    rcases h with h | h
    · exact Or.inl (by simpa [List.cons_append] using startsWithDelim_append (c :: t) l' h)
    · exact Or.inr (ih h)

lemma hasDelim_take (l : List Char) (n : Nat) (h : hasDelim l = false) :
    hasDelim (l.take n) = false := by
  by_contra hc
  rw [Bool.not_eq_false] at hc
  have htrue := hasDelim_append (l.take n) (l.drop n) hc
  rw [List.take_append_drop] at htrue
  rw [htrue] at h
  exact absurd h (by simp)

lemma beforeDelim_append (l l' : List Char) (h : hasDelim l = true) :
    beforeDelim (l ++ l') = beforeDelim l := by
  induction l with
  | nil => simp [hasDelim] at h
  | cons c t ih =>
    simp only [hasDelim, Bool.or_eq_true] at h
    show beforeDelim (c :: (t ++ l')) = beforeDelim (c :: t)
    by_cases hs : startsWithDelim (c :: t) = true
    · have hs' : startsWithDelim (c :: (t ++ l')) = true :=
        startsWithDelim_append (c :: t) l' hs
      rw [beforeDelim, beforeDelim, hs, hs']
      simp
    · have ht : hasDelim t = true := by
        rcases h with h | h
        · exact absurd h hs
        · exact h
      have h4 : 4 ≤ (c :: t).length := by
        have := hasDelim_length t ht
        simp only [List.length_cons]
        omega
      have hs' : startsWithDelim (c :: (t ++ l')) = startsWithDelim (c :: t) :=
        startsWithDelim_append_of_four (c :: t) l' h4
      rw [Bool.not_eq_true] at hs
      rw [beforeDelim, beforeDelim, hs, hs', hs]
      simp only [Bool.false_eq_true, if_false]
      exact congrArg (c :: ·) (ih ht)

lemma take4_pad (x : List Char) (hx : 1 ≤ x.length) :
    (x ++ delim).take 4 = (x ++ ['@', '@', '@']).take 4 := by
  rw [List.take_append_eq_append_take, List.take_append_eq_append_take]
  have h4 : 4 - x.length = 0 ∨ 4 - x.length = 1 ∨ 4 - x.length = 2 ∨ 4 - x.length = 3 := by
    omega
  rcases h4 with h | h | h | h <;> rw [h] <;> rfl

/-- The key payload lemma: when the identifier (as characters) followed by three
`'@'` contains no delimiter, appending the full `"@@@@"` delimiter makes the first
delimiter occurrence sit exactly at the end, so `split("@@@@")[0]` recovers the
identifier. -/
lemma beforeDelim_payload (l : List Char) (h : hasDelim (l ++ ['@', '@', '@']) = false) :
    beforeDelim (l ++ delim) = l ∧ hasDelim (l ++ delim) = true := by
  induction l with
  | nil => exact ⟨rfl, rfl⟩
  | cons c t ih =>
    have hsplit : startsWithDelim (c :: (t ++ ['@', '@', '@'])) = false ∧
        hasDelim (t ++ ['@', '@', '@']) = false := by
      have := h
      simp only [List.cons_append, hasDelim, Bool.or_eq_false_iff] at this
      exact this
    obtain ⟨ihb, ihd⟩ := ih hsplit.2
    have hsw : startsWithDelim (c :: (t ++ delim)) = false := by
      unfold startsWithDelim at hsplit ⊢
      rw [show c :: (t ++ delim) = (c :: t) ++ delim from rfl, take4_pad (c :: t) (by simp)]
      exact hsplit.1
    constructor
    · show beforeDelim (c :: (t ++ delim)) = c :: t
      rw [beforeDelim, hsw]
      simp only [Bool.false_eq_true, if_false]
      exact congrArg (c :: ·) ihb
    · simp only [List.cons_append, hasDelim, Bool.or_eq_true]
      exact Or.inr ihd

/-! ### Helper lemmas: the decode loop -/

/-- The incremental decode loop, characterized against the full decoded
stream: it returns the part of the stream before the first delimiter with
ratio `1.0` when the delimiter occurs, and the `("Unknown", 0.1)` sentinel
otherwise. -/
lemma scanBytes_spec (gs : List (List Nat)) : ∀ acc : List Char, hasDelim acc = false →
    scanBytes gs acc =
      if hasDelim (acc ++ decodeAll gs) = true
      then (String.mk (beforeDelim (acc ++ decodeAll gs)), 1)
      else ("Unknown", 1 / 10) := by
  induction gs with
  | nil =>
    intro acc h
    simp [scanBytes, decodeAll, h]
  | cons g rest ih =>
    intro acc h
    cases hg : pyChr (bitsToNat g) with
    | none =>
      have hd : decodeAll (g :: rest) = decodeAll rest := by
        simp [decodeAll, hg]
      rw [show scanBytes (g :: rest) acc = scanBytes rest acc by simp [scanBytes, hg], hd]
      exact ih acc h
    | some ch =>
      have hd : decodeAll (g :: rest) = ch :: decodeAll rest := by
        simp [decodeAll, hg]
      have hassoc : acc ++ ch :: decodeAll rest = (acc ++ [ch]) ++ decodeAll rest := by
        simp
      by_cases hdel : hasDelim (acc ++ [ch]) = true
      · rw [show scanBytes (g :: rest) acc = (String.mk (beforeDelim (acc ++ [ch])), 1) by
          simp [scanBytes, hg, hdel]]
        rw [hd, hassoc,
          if_pos (hasDelim_append _ _ hdel),
          beforeDelim_append _ _ hdel]
      · rw [show scanBytes (g :: rest) acc = scanBytes rest (acc ++ [ch]) by
          simp [scanBytes, hg, hdel]]
        rw [hd, hassoc]
        exact ih (acc ++ [ch]) (by simpa using hdel)

lemma decodeAll_charBlocks (cs : List Char) (rest : List (List Nat))
    (h : ∀ c ∈ cs, c.toNat < 256) :
    decodeAll (cs.map charBits ++ rest) = cs ++ decodeAll rest := by
  induction cs with
  | nil => simp
  | cons c t ih =>
    simp only [List.map_cons, List.cons_append, decodeAll, List.filterMap_cons]
    rw [charBits_decode c (h c (by simp))]
    simp only [List.cons.injEq, true_and]
    exact ih (fun x hx => h x (by simp [hx]))

/-- `extract_watermark_lsb`, characterized declaratively. -/
lemma extract_spec (flat : List Nat) :
    extract_watermark_lsb flat =
      if hasDelim (decodeAll (chunk8 (lsbWindow flat))) = true
      then (String.mk (beforeDelim (decodeAll (chunk8 (lsbWindow flat)))), 1)
      else ("Unknown", 1 / 10) := by
  unfold extract_watermark_lsb
  simpa using scanBytes_spec (chunk8 (lsbWindow flat)) [] rfl


lemma payload_chars (id : String) (hchars : ∀ c ∈ id.data, c.toNat < 256) :
    ∀ c ∈ (id ++ "@@@@").data, c.toNat < 256 := by
  rw [String.data_append]
  intro c hc
  rcases List.mem_append.mp hc with h | h
  · exact hchars c h
  · simp only [List.mem_cons, List.not_mem_nil, or_false] at h
    rcases h with rfl | rfl | rfl | rfl <;> decide

lemma payload_length (id : String) (hchars : ∀ c ∈ id.data, c.toNat < 256) :
    (strBits (id ++ "@@@@")).length = 8 * (id.length + 4) := by
  rw [strBits_length _ (payload_chars id hchars), String.length_append]
  rfl

lemma binary_data_length (id : String) (strength : Nat) :
    ((List.replicate strength (strBits (id ++ "@@@@"))).flatten).length =
      (strBits (id ++ "@@@@")).length * strength := by
  rw [List.length_flatten, List.map_replicate, List.sum_replicate, smul_eq_mul]
  ring

lemma binary_data_le_one (id : String) (strength : Nat) :
    ∀ b ∈ (List.replicate strength (strBits (id ++ "@@@@"))).flatten, b ≤ 1 := by
  intro b hb
  rcases List.mem_flatten.mp hb with ⟨l, hl, hbl⟩
  rw [List.eq_of_mem_replicate hl] at hbl
  exact strBits_le_one _ b hbl

lemma decodeAll_all_bytes (gs : List (List Nat)) (h : ∀ g ∈ gs, bitsToNat g ≤ 255) :
    (decodeAll gs).length = gs.length := by
  induction gs with
  | nil => simp [decodeAll]
  | cons g t ih =>
    have hs : pyChr (bitsToNat g) = some (Char.ofNat (bitsToNat g)) := by
      unfold pyChr
      rw [if_pos (by have := h g (by simp); omega)]
    simp only [decodeAll, List.filterMap_cons, hs, List.length_cons]
    have := ih (fun x hx => h x (by simp [hx]))
    simpa [decodeAll] using this

/-! ### Claim theorems -/

/-- C1 (amended): round-trip of the watermark codec.  For an image whose
samples are valid bytes, an identifier whose characters fit in one byte, that
does not contain the delimiter and does not end in `'@'` (expressed as: the
identifier followed by `"@@@"` contains no `"@@@@"`), whose first serialized
copy fits inside the 16000-sample scan window, and whose full redundant
bitstream fits the image, `extract(embed(image, id, strength)).text = id`
with match ratio `1.0`, for every strength ≥ 1. -/
theorem roundtrip_extract_embed (flat : List Nat) (id : String) (strength : Nat)
    (hpix : ∀ v ∈ flat, v < 256)
    (hchars : ∀ c ∈ id.data, c.toNat < 256)
    (hclean : hasDelim (id.data ++ ['@', '@', '@']) = false)
    (hwin : 8 * (id.length + 4) ≤ 16000)
    (hstr : 1 ≤ strength)
    (hcap : 8 * (id.length + 4) * strength ≤ flat.length) :
    ∃ out bits, embed_watermark_lsb flat id strength = Except.ok (out, bits) ∧
      extract_watermark_lsb out = (id, 1) := by
  obtain ⟨k, rfl⟩ : ∃ k, strength = k + 1 := ⟨strength - 1, by omega⟩
  have hdata : (id ++ "@@@@").data = id.data ++ delim := by
    rw [String.data_append]
    rfl
  have hpaychars : ∀ c ∈ (id ++ "@@@@").data, c.toNat < 256 := by
    rw [hdata]
    intro c hc
    rcases List.mem_append.mp hc with h | h
    · exact hchars c h
    · simp only [delim, List.mem_cons, List.not_mem_nil, or_false] at h
      rcases h with rfl | rfl | rfl | rfl <;> decide
  have hlen0 : (strBits (id ++ "@@@@")).length = 8 * (id.length + 4) := by
    rw [strBits_length _ hpaychars, String.length_append]
    rfl
  set bits0 := strBits (id ++ "@@@@") with hbits0
  set rest := (List.replicate k bits0).flatten with hrest
  have hbdeq : (List.replicate (k + 1) bits0).flatten = bits0 ++ rest := by
    rw [List.replicate_succ, List.flatten_cons]
  have hrestlen : rest.length = k * bits0.length := by
    rw [hrest, List.length_flatten, List.map_replicate, List.sum_replicate, smul_eq_mul]
  have hble : (bits0 ++ rest).length ≤ flat.length := by
    rw [List.length_append, hrestlen, hlen0]
    have : 8 * (id.length + 4) * (k + 1) = 8 * (id.length + 4) + k * (8 * (id.length + 4)) := by
      ring
    omega
  have hok : embed_watermark_lsb flat id (k + 1) =
      Except.ok ((setLSBs flat (bits0 ++ rest)).map (fun v => v &&& 255), bits0 ++ rest) := by
    unfold embed_watermark_lsb
    rw [← hbits0, hbdeq, if_neg (by omega)]
  refine ⟨_, _, hok, ?_⟩
  have hbits_le : ∀ b ∈ bits0 ++ rest, b ≤ 1 := by
    intro b hb
    rcases List.mem_append.mp hb with h | h
    · exact strBits_le_one _ b h
    · rw [hrest] at h
      rcases List.mem_flatten.mp h with ⟨l, hl, hbl⟩
      rw [List.eq_of_mem_replicate hl] at hbl
      exact strBits_le_one _ b hbl
  have hmap : ((setLSBs flat (bits0 ++ rest)).map (fun v => v &&& 255)).map (fun v => v &&& 1) =
      (bits0 ++ rest) ++ (flat.drop (bits0 ++ rest).length).map (fun v => (v &&& 255) &&& 1) := by
    rw [List.map_map]
    exact setLSBs_map_lsb flat (bits0 ++ rest) hble hpix hbits_le
  have hwindow : lsbWindow ((setLSBs flat (bits0 ++ rest)).map (fun v => v &&& 255)) =
      bits0 ++ (rest ++ (flat.drop (bits0 ++ rest).length).map (fun v => (v &&& 255) &&& 1)).take
        (16000 - bits0.length) := by
    unfold lsbWindow
    rw [List.map_take, hmap, List.append_assoc, List.take_append_eq_append_take,
      List.take_of_length_le (by omega : bits0.length ≤ 16000)]
  have hblocks : bits0 = ((id ++ "@@@@").data.map charBits).flatten := hbits0
  have hblock_len : ∀ b ∈ (id ++ "@@@@").data.map charBits, b.length = 8 := by
    intro b hb
    rcases List.mem_map.mp hb with ⟨c, hc, rfl⟩
    exact charBits_length c (hpaychars c hc)
  have hchunks : chunk8 (lsbWindow ((setLSBs flat (bits0 ++ rest)).map (fun v => v &&& 255))) =
      (id ++ "@@@@").data.map charBits ++ chunk8 ((rest ++
        (flat.drop (bits0 ++ rest).length).map (fun v => (v &&& 255) &&& 1)).take
        (16000 - bits0.length)) := by
    rw [hwindow]
    conv_lhs => rw [hblocks]
    exact chunk8_flatten _ _ hblock_len
  have hdecode : decodeAll (chunk8 (lsbWindow ((setLSBs flat (bits0 ++ rest)).map
      (fun v => v &&& 255)))) =
      (id.data ++ delim) ++ decodeAll (chunk8 ((rest ++
        (flat.drop (bits0 ++ rest).length).map (fun v => (v &&& 255) &&& 1)).take
        (16000 - bits0.length))) := by
    rw [hchunks, decodeAll_charBlocks _ _ hpaychars, hdata]
  obtain ⟨hbefore, hdelim⟩ := beforeDelim_payload id.data hclean
  rw [extract_spec, hdecode, List.append_assoc] at *
  rw [if_pos (by
    rw [← List.append_assoc]
    exact hasDelim_append _ _ hdelim)]
  rw [← List.append_assoc, beforeDelim_append _ _ hdelim, hbefore]

/-- C1 witness: embedding `"ab"` at strength 2 into a 96-sample image (exact
capacity) and extracting recovers `"ab"` with match ratio `1.0`. -/
theorem roundtrip_extract_embed_witness :
    ∃ out bits, embed_watermark_lsb (List.replicate 96 5) "ab" 2 = Except.ok (out, bits) ∧
      extract_watermark_lsb out = ("ab", 1) :=
  roundtrip_extract_embed (List.replicate 96 5) "ab" 2
    (fun v hv => by rw [List.eq_of_mem_replicate hv]; omega)
    (by decide) (by decide) (by decide) (by decide) (by decide)

set_option maxRecDepth 20000 in
/-- C1 counterexample: the round-trip fails as stated for the identifier
`"@@@@"` on a 64-sample all-zero image (plenty of capacity, strength 1):
extraction returns `""`, not the identifier. -/
theorem roundtrip_cex :
    ∃ out bits, embed_watermark_lsb (List.replicate 64 0) "@@@@" 1 = Except.ok (out, bits) ∧
      extract_watermark_lsb out = ("", 1) ∧ ("" : String) ≠ "@@@@" :=
  ⟨_, _, rfl, rfl, by decide⟩

/-- C2: the capacity check.  Over a `height*width*3`-sample image, embedding
fails (with the capacity `ValueError`) exactly when the serialized bitstream —
identifier plus delimiter, repeated `strength` times — is longer than
`height*width*3`, and succeeds at the boundary equality; when every identifier
character fits in a byte the bitstream length is `8*(len(id)+4)*strength`.
In the embedding the error carries no image at all (`Except.error`), so a
failed embed produces no partially written buffer. -/
theorem capacity_boundary (h w strength : Nat) (flat : List Nat) (id : String)
    (hlen : flat.length = h * w * 3) :
    ((∃ e, embed_watermark_lsb flat id strength = Except.error e) ↔
      h * w * 3 < (strBits (id ++ "@@@@")).length * strength) ∧
    ((embed_watermark_lsb flat id strength).isOk = true ↔
      (strBits (id ++ "@@@@")).length * strength ≤ h * w * 3) ∧
    ((∀ c ∈ id.data, c.toNat < 256) →
      ((embed_watermark_lsb flat id strength).isOk = true ↔
        8 * (id.length + 4) * strength ≤ h * w * 3)) := by
  have hbd := binary_data_length id strength
  unfold embed_watermark_lsb
  by_cases hc : ((List.replicate strength (strBits (id ++ "@@@@"))).flatten).length >
      flat.length
  · rw [if_pos hc]
    have hlt : h * w * 3 < (strBits (id ++ "@@@@")).length * strength := by omega
    refine ⟨⟨fun _ => hlt, fun _ => ⟨_, rfl⟩⟩, ⟨fun hk => by simp [Except.isOk, Except.toBool] at hk,
      fun hk => absurd hk (by omega)⟩, fun hbyte =>
      ⟨fun hk => by simp [Except.isOk, Except.toBool] at hk, fun hk => ?_⟩⟩
    rw [← payload_length id hbyte] at hk
    omega
  · rw [if_neg hc]
    have hle : (strBits (id ++ "@@@@")).length * strength ≤ h * w * 3 := by omega
    refine ⟨⟨fun ⟨e, he⟩ => by simp at he, fun hk => absurd hk (by omega)⟩,
      ⟨fun _ => hle, fun _ => rfl⟩, fun hbyte => ⟨fun _ => ?_, fun _ => rfl⟩⟩
    rw [← payload_length id hbyte]
    omega

/-- C2 witness: a 4×4 RGB image (48 samples) takes `"ab"` (48 bits) at
strength 1 — exact boundary — and rejects it at strength 2. -/
theorem capacity_boundary_witness :
    (embed_watermark_lsb (List.replicate 48 0) "ab" 1).isOk = true ∧
    (∃ e, embed_watermark_lsb (List.replicate 48 0) "ab" 2 = Except.error e) :=
  ⟨(capacity_boundary 4 4 1 (List.replicate 48 0) "ab" (by decide)).2.1.mpr (by decide),
   (capacity_boundary 4 4 2 (List.replicate 48 0) "ab" (by decide)).1.mpr (by decide)⟩

/-- C3: for every `(found, match_ratio)` input, the clamped confidence of the
verification classifier lies in `[0, 100]`. -/
theorem confidence_in_range (found : Bool) (match_ratio : ℚ) :
    0 ≤ (confidence_tamper found match_ratio).1 ∧
      (confidence_tamper found match_ratio).1 ≤ 100 :=
  ⟨le_max_left 0 _, max_le (by norm_num) (min_le_left _ _)⟩

/-- C5: the extraction scan cap.  Extraction depends only on the
least-significant bits of the first 16000 samples (so a delimiter lying
entirely beyond that window is never seen), the match ratio is `1.0` exactly
when the delimiter occurs in the decoded stream of that window, and otherwise
the result is the fixed not-found sentinel. -/
theorem extraction_window_cap (flat : List Nat) :
    extract_watermark_lsb flat =
      extract_watermark_lsb ((flat.take 16000).map (fun v => v &&& 1)) ∧
    ((extract_watermark_lsb flat).2 = 1 ↔
      hasDelim (decodeAll (chunk8 (lsbWindow flat))) = true) ∧
    ((extract_watermark_lsb flat).2 = 1 ∨
      extract_watermark_lsb flat = ("Unknown", 1 / 10)) := by
  have hcomp : ((fun v => v &&& 1) ∘ (fun v => v &&& 1)) = (fun v : Nat => v &&& 1) := by
    funext v
    simp [Function.comp, Nat.and_assoc]
  have hwin : lsbWindow ((flat.take 16000).map (fun v => v &&& 1)) = lsbWindow flat := by
    unfold lsbWindow
    rw [List.take_of_length_le (by simp), List.map_map, hcomp]
  refine ⟨by rw [extract_spec, extract_spec, hwin], ?_, ?_⟩
  · rw [extract_spec]
    cases hD : hasDelim (decodeAll (chunk8 (lsbWindow flat))) with
    | true => simp
    | false => norm_num
  · rw [extract_spec]
    cases hD : hasDelim (decodeAll (chunk8 (lsbWindow flat))) with
    | true =>
      left
      simp
    | false =>
      right
      simp

/-- C10: the byte-decode skip branch of extraction is unreachable.  Every
chunk read from the LSB stream has value at most 255, `chr` succeeds on it,
and the decoded stream has exactly one character per chunk — nothing is ever
skipped. -/
theorem decode_skip_unreachable (flat : List Nat) :
    (∀ g ∈ chunk8 (lsbWindow flat), bitsToNat g ≤ 255 ∧
      pyChr (bitsToNat g) = some (Char.ofNat (bitsToNat g))) ∧
    (decodeAll (chunk8 (lsbWindow flat))).length = (chunk8 (lsbWindow flat)).length := by
  have hbits : ∀ x ∈ lsbWindow flat, x ≤ 1 := by
    intro x hx
    unfold lsbWindow at hx
    rcases List.mem_map.mp hx with ⟨v, _, rfl⟩
    exact Nat.and_le_right
  have hmem := chunk8_mem (lsbWindow flat) hbits
  have hg : ∀ g ∈ chunk8 (lsbWindow flat), bitsToNat g ≤ 255 := fun g hgm =>
    bitsToNat_le_255 g (hmem g hgm).2 (hmem g hgm).1
  refine ⟨fun g hgm => ⟨hg g hgm, ?_⟩, decodeAll_all_bytes _ hg⟩
  unfold pyChr
  rw [if_pos (by have := hg g hgm; omega)]

/-- C4 counterexample: the no-watermark branch produces the string
`"no watermark"` (with a space), which is not a member of the enum
`{intact, modified, no_watermark}` as the claim spells it. -/
theorem tamper_enum_cex :
    (confidence_tamper false 0).2 = "no watermark" ∧
    ("no watermark" : String) ∉ (["intact", "modified", "no_watermark"] : List String) := by
  constructor
  · norm_num [confidence_tamper]
  · decide

/-- C4 (amended): the tamper status is the fixed piecewise function of
`(found, match_ratio)` with strict `>` thresholds — `found` with ratio above
0.9 gives `"intact"`, the two remaining found branches both give
`"modified"`, not-found above 0.4 gives `"modified"` and otherwise
`"no watermark"` (spelled with a space) — so ratio 0.9 with `found` is
`"modified"`, ratio 0.91 is `"intact"`, and the output is always one of the
three values `"intact"`, `"modified"`, `"no watermark"`. -/
theorem tamper_mapping (found : Bool) (r : ℚ) :
    (confidence_tamper found r).2 =
      (if found then (if r > 9 / 10 then "intact" else "modified")
       else if r > 4 / 10 then "modified" else "no watermark") ∧
    (confidence_tamper true (9 / 10)).2 = "modified" ∧
    (confidence_tamper true (91 / 100)).2 = "intact" ∧
    (confidence_tamper found r).2 ∈ (["intact", "modified", "no watermark"] : List String) := by
  have hmain : ∀ (f : Bool) (q : ℚ), (confidence_tamper f q).2 =
      (if f then (if q > 9 / 10 then "intact" else "modified")
       else if q > 4 / 10 then "modified" else "no watermark") := by
    intro f q
    cases f with
    | true =>
      by_cases h9 : q > 9 / 10
      · simp [confidence_tamper, h9]
      · by_cases h7 : q > 7 / 10 <;> simp [confidence_tamper, h9, h7]
    | false =>
      by_cases h4 : q > 4 / 10 <;> simp [confidence_tamper, h4]
  refine ⟨hmain found r, ?_, ?_, ?_⟩
  · rw [hmain]
    norm_num
  · rw [hmain]
    norm_num
  · rw [hmain]
    split_ifs <;> simp

/-- C6 counterexample: on an image whose scan window never produces the
delimiter, extraction returns the sentinel spelled `"Unknown"`, not the
`"unknown"` the claim states. -/
theorem sentinel_cex :
    extract_watermark_lsb (List.replicate 24 0) = ("Unknown", 1 / 10) ∧
    ("Unknown" : String) ≠ "unknown" :=
  ⟨rfl, by decide⟩

/-- C6 (amended): whenever the scan window is exhausted without the decoded
stream containing the delimiter, extraction returns exactly
`("Unknown", 0.1)`; otherwise it returns the part of the decoded stream
before the first delimiter occurrence with ratio `1.0`; the ratio never takes
a value other than `1.0` or `0.1`. -/
theorem extraction_sentinel (flat : List Nat) :
    (hasDelim (decodeAll (chunk8 (lsbWindow flat))) = false →
      extract_watermark_lsb flat = ("Unknown", 1 / 10)) ∧
    (hasDelim (decodeAll (chunk8 (lsbWindow flat))) = true →
      (extract_watermark_lsb flat).1.data =
        beforeDelim (decodeAll (chunk8 (lsbWindow flat))) ∧
      (extract_watermark_lsb flat).2 = 1) ∧
    ((extract_watermark_lsb flat).2 = 1 ∨ (extract_watermark_lsb flat).2 = 1 / 10) := by
  rw [extract_spec]
  cases hD : hasDelim (decodeAll (chunk8 (lsbWindow flat))) with
  | true => simp
  | false => simp

/-- C7 counterexample: with no stored record, extracted text `"Unknown"` and
match ratio `1.0`, the code reports `found = false` and `owner_id = None`,
while the claim's rule (text ≠ `"unknown"`) demands `found = true` and an
owner: the claim's spelling of the sentinel does not match the code's. -/
theorem found_owner_cex :
    watermark_found none "Unknown" 1 = false ∧
    found_per_spec none "Unknown" 1 ∧
    owner_id none "Unknown" = none ∧
    ("Unknown" : String) ≠ "unknown" := by
  refine ⟨?_, Or.inr ⟨by norm_num, by decide⟩, ?_, by decide⟩
  · norm_num [watermark_found]
  · simp [owner_id]

/-- C7 (amended): `found` is true exactly when a stored record exists or the
match ratio exceeds 0.5 and the extracted text differs from the sentinel
`"Unknown"`; `owner_id` is the record's owner when a record exists, else the
extracted text when it is not `"Unknown"`, else none. -/
theorem found_owner_rules (record : Option String) (text : String) (ratio : ℚ) :
    (watermark_found record text ratio = true ↔
      record ≠ none ∨ (ratio > 1 / 2 ∧ text ≠ "Unknown")) ∧
    (∀ o, record = some o → owner_id record text = some o) ∧
    (record = none → text ≠ "Unknown" → owner_id record text = some text) ∧
    (record = none → text = "Unknown" → owner_id record text = none) := by
  refine ⟨?_, ?_, ?_, ?_⟩
  · cases record <;> simp [watermark_found]
  · intro o h
    subst h
    rfl
  · intro h hne
    subst h
    simp [owner_id, hne]
  · intro h he
    subst h
    simp [owner_id, he]

/-- C8: the epsilon convention of `process_protection`.  A raw strength at
most 1 is passed through unchanged as the perturbation epsilon; a strength
above 1 is treated as a 0–100 scale and mapped linearly,
`epsilon = strength/100 * 0.05`, which lands in `[0, 0.05]` for the whole
0–100 scale. -/
theorem epsilon_convention (strength : ℚ) :
    epsilonOf strength = (if strength ≤ 1 then strength else strength / 100 * (5 / 100)) ∧
    (1 < strength → strength ≤ 100 → 0 ≤ epsilonOf strength ∧ epsilonOf strength ≤ 5 / 100) := by
  constructor
  · unfold epsilonOf
    by_cases h : strength > 1
    · rw [if_pos h, if_neg (by linarith)]
    · rw [if_neg h, if_pos (by linarith)]
  · intro h1 h100
    unfold epsilonOf
    rw [if_pos h1]
    constructor <;> nlinarith

/-- C9: the frame property of a successful embed.  The output has the same
sample count; every sample beyond the bitstream length is identical to the
input; each written sample equals the input sample with its least-significant
bit cleared (`& 0xFE`) and set to the watermark bit, so its LSB is the
watermark bit and all higher bits (`sample / 2`) are untouched.  (The input
list itself is never modified: the embedding returns a fresh list.) -/
theorem embed_frame (flat : List Nat) (id : String) (strength : Nat)
    (out bits : List Nat)
    (hok : embed_watermark_lsb flat id strength = Except.ok (out, bits))
    (hpix : ∀ v ∈ flat, v < 256) :
    out.length = flat.length ∧
    out.drop bits.length = flat.drop bits.length ∧
    (∀ i, i < bits.length →
      out.getD i 0 = ((flat.getD i 0) &&& 254) ||| (bits.getD i 0) ∧
      out.getD i 0 % 2 = bits.getD i 0 ∧
      out.getD i 0 / 2 = flat.getD i 0 / 2) := by
  unfold embed_watermark_lsb at hok
  by_cases hc : ((List.replicate strength (strBits (id ++ "@@@@"))).flatten).length >
      flat.length
  · rw [if_pos hc] at hok
    exact absurd hok (by simp)
  · rw [if_neg hc] at hok
    push_neg at hc
    obtain ⟨hout, hbits⟩ : out = (setLSBs flat
        ((List.replicate strength (strBits (id ++ "@@@@"))).flatten)).map
          (fun v => v &&& 255) ∧
        bits = (List.replicate strength (strBits (id ++ "@@@@"))).flatten := by
      have := hok
      simp only [Except.ok.injEq, Prod.mk.injEq] at this
      exact ⟨this.1.symm, this.2.symm⟩
    subst hout hbits
    have hsetlen : (setLSBs flat
        ((List.replicate strength (strBits (id ++ "@@@@"))).flatten)).length =
        flat.length := setLSBs_length _ _ hc
    have hble1 := binary_data_le_one id strength
    refine ⟨by simp [hsetlen], ?_, ?_⟩
    · rw [← List.map_drop, setLSBs_drop]
      have hmem : ∀ v ∈ flat.drop
          ((List.replicate strength (strBits (id ++ "@@@@"))).flatten).length, v &&& 255 = v := by
        intro v hv
        have hvf : v ∈ flat := List.mem_of_mem_drop hv
        exact (lsb_write_facts v (hpix v hvf) 0 (by omega)).2.2.2.1
      rw [List.map_congr_left hmem]
      exact List.map_id _
    · intro i hi
      have hif : i < flat.length := by omega
      have hgd : ((setLSBs flat
          ((List.replicate strength (strBits (id ++ "@@@@"))).flatten)).map
            (fun v => v &&& 255)).getD i 0 =
          (((flat.getD i 0) &&& 254) ||| ((((List.replicate strength
            (strBits (id ++ "@@@@"))).flatten)).getD i 0)) &&& 255 := by
        rw [getD_map_lt _ _ _ (by omega), setLSBs_getD flat _ i hi hif]
      have hv256 : flat.getD i 0 < 256 := by
        have : flat.getD i 0 ∈ flat := by
          rw [List.getD_eq_getElem flat 0 hif]
          exact List.getElem_mem hif
        exact hpix _ this
      have hb1 : (((List.replicate strength (strBits (id ++ "@@@@"))).flatten)).getD i 0 ≤ 1 := by
        have : (((List.replicate strength (strBits (id ++ "@@@@"))).flatten)).getD i 0 ∈
            ((List.replicate strength (strBits (id ++ "@@@@"))).flatten) := by
          rw [List.getD_eq_getElem _ 0 hi]
          exact List.getElem_mem hi
        exact hble1 _ this
      have hfacts := lsb_write_facts _ hv256 _ hb1
      rw [hgd, hfacts.1]
      exact ⟨rfl, hfacts.2.1, hfacts.2.2.1⟩

/-- C9 witness: a concrete successful embed of the empty identifier into a
40-sample image keeps the sample count. -/
theorem embed_frame_witness :
    ∃ out bits, embed_watermark_lsb (List.replicate 40 7) "" 1 = Except.ok (out, bits) ∧
      out.length = (List.replicate 40 7).length := by
  refine ⟨_, _, rfl, ?_⟩
  exact (embed_frame (List.replicate 40 7) "" 1 _ _ rfl
    (fun v hv => by rw [List.eq_of_mem_replicate hv]; omega)).1

end PNGProtect
